import Mathlib

/-!
Verification of the task/approval lifecycle core of the Personal-AI-Employee
repository: shallow embeddings of the orchestrator scan/dispatch loop, the
watcher dedup loops, the approval and plan managers, the persisted dedup cache
and the scheduler, together with theorems settling the specification claims.
All definitions are transcribed from the Python sources named in their doc
comments.

The Python string primitives used by the sources (startswith, split, int
parsing, lower) are given executable structural definitions over the character
list of a Lean string, so that every model evaluates inside the kernel.
-/

namespace AIEmployee

/-! ## String primitives

Executable transcriptions of the Python string operations the modelled code
uses.  They operate on `String.data`, the underlying character list. -/

/-- Python `s.startswith(p)`. -/
def strStartsWith (s p : String) : Bool :=
  p.data.isPrefixOf s.data

/-- Python `c in s` for a single character `c`. -/
def strContainsChar (s : String) (c : Char) : Bool :=
  s.data.contains c

/-- Splitting a character list at every occurrence of `c`; the pieces, in
order, with empty pieces kept — the behaviour of Python `s.split(c)`. -/
def splitOnChar (c : Char) : List Char → List (List Char)
  | [] => [[]]
  | x :: xs =>
    match splitOnChar c xs with
    | [] => if x == c then [[], [x]] else [[x]]
    | h :: t => if x == c then [] :: h :: t else (x :: h) :: t

/-- Python `s.split(c)` as a list of strings. -/
def strSplitChar (s : String) (c : Char) : List String :=
  (splitOnChar c s.data).map (fun l => String.mk l)

/-- Python `int(s)` restricted to plain decimal digit strings, the only shape
occurring in the schedules under study (`int` additionally accepts surrounding
whitespace and a sign, which the modelled inputs never contain); `none` models
a raised ValueError. -/
def strToNat? (s : String) : Option Nat :=
  match s.data with
  | [] => none
  | l =>
    l.foldl
      (fun acc c =>
        match acc with
        | some n => if c.isDigit then some (n * 10 + (c.toNat - 48)) else none
        | none => none)
      (some 0)

/-- Python `s.lower()` (ASCII case folding suffices for the weekday names
compared by the scheduler). -/
def strToLower (s : String) : String :=
  String.mk (s.data.map Char.toLower)

/-! ## Scheduler (src/scripts/scheduler.py) -/

/-- One entry of the static job table `Scheduler.tasks`
(src/scripts/scheduler.py, lines 35-60).  Only the fields that
`run_due_tasks` reads to decide due-ness are modelled; the description and the
script or command payload of an entry do not influence scheduling. -/
structure STask where
  name : String
  schedule : String
deriving DecidableEq

/-- Zero-padding to two digits, as `strftime` does for %H and %M. -/
def pad2 (n : Nat) : String :=
  if n < 10 then "0" ++ toString n else toString n

/-- The current instant as read by `run_due_tasks`
(src/scripts/scheduler.py, lines 126-128): the weekday name (strftime %A), the
hour and the minute. -/
structure SchedTime where
  weekday : String
  hour : Nat
  minute : Nat

/-- Rendering of `now.strftime` with format %H:%M from the hour and minute
fields. -/
def format_hm (t : SchedTime) : String :=
  pad2 t.hour ++ ":" ++ pad2 t.minute

/-- Due-ness test for one task, transcribing the schedule dispatch of
`Scheduler.run_due_tasks` (src/scripts/scheduler.py, lines 132-153).
A `none` result models a raised exception: `int(schedule[2:])` raising
ValueError on a non-numeric interval, `minute % 0` raising ZeroDivisionError,
or the two-variable unpacking of `schedule.split(' ')` failing when the string
does not split into exactly two parts. -/
def should_run (schedule : String) (t : SchedTime) : Option Bool :=
  if strStartsWith schedule "*/" then
    match strToNat? (schedule.drop 2) with
    | some n => if n = 0 then none else some (t.minute % n == 0)
    | none => none
  else if strContainsChar schedule ' ' then
    match strSplitChar schedule ' ' with
    | [day, time] => some (strToLower day == strToLower t.weekday && time == format_hm t)
    | _ => none
  else
    some (schedule == format_hm t)

/-- Transcription of `Scheduler.run_due_tasks`
(src/scripts/scheduler.py, lines 124-165): the list of the jobs executed, in
table order.  A `none` result models the call raising while evaluating a
schedule, which aborts the scan (jobs already executed before the raise are not
reported; no claim depends on them).  Each due job is executed synchronously by
`run_task`; the execution itself (subprocess, timeout, logging) does not feed
back into due-ness and is not modelled. -/
def run_due_tasks (tasks : List STask) (t : SchedTime) : Option (List STask) :=
  match tasks with
  | [] => some []
  | task :: rest =>
    match should_run task.schedule t with
    | none => none
    | some b =>
      match run_due_tasks rest t with
      | none => none
      | some r => some (if b then task :: r else r)

theorem run_due_tasks_mem (tasks : List STask) (t : SchedTime) (res : List STask)
    (hres : run_due_tasks tasks t = some res) (task : STask) :
    task ∈ res ↔ task ∈ tasks ∧ should_run task.schedule t = some true := by
  induction tasks generalizing res with
  | nil =>
    simp only [run_due_tasks, Option.some.injEq] at hres
    subst hres
    simp
  | cons hd tl ih =>
    simp only [run_due_tasks] at hres
    cases hsr : should_run hd.schedule t with
    | none => simp [hsr] at hres
    | some b =>
      rw [hsr] at hres
      cases hrec : run_due_tasks tl t with
      | none => simp [hrec] at hres
      | some r =>
        rw [hrec] at hres
        simp only [Option.some.injEq] at hres
        have htl := ih r hrec
        cases b with
        | true =>
          subst hres
          rw [if_pos rfl, List.mem_cons, List.mem_cons, htl]
          constructor
          · rintro (rfl | ⟨hm, hs⟩)
            · exact ⟨Or.inl rfl, hsr⟩
            · exact ⟨Or.inr hm, hs⟩
          · rintro ⟨rfl | hm, hs⟩
            · exact Or.inl rfl
            · exact Or.inr ⟨hm, hs⟩
        | false =>
          subst hres
          rw [if_neg (by simp), htl, List.mem_cons]
          constructor
          · rintro ⟨hm, hs⟩
            exact ⟨Or.inr hm, hs⟩
          · rintro ⟨rfl | hm, hs⟩
            · rw [hsr] at hs
              simp at hs
            · exact ⟨hm, hs⟩

/-- C7: for a job with interval schedule `*/N` (N positive), `run_due_tasks`
executes the job iff the current minute modulo N is zero; for a job whose
schedule has no `*/` prefix and no space (the fixed-time shape `HH:MM`), it
executes the job iff the schedule string equals the current time formatted as
`HH:MM`.  `res` is the executed-job list of a completed (non-raising) scan. -/
theorem run_due_tasks_due_iff (tasks : List STask) (t : SchedTime) (res : List STask)
    (hres : run_due_tasks tasks t = some res) :
    (∀ task ∈ tasks, ∀ n : Nat, strStartsWith task.schedule "*/" = true →
        strToNat? (task.schedule.drop 2) = some n → 0 < n →
        (task ∈ res ↔ t.minute % n = 0)) ∧
    (∀ task ∈ tasks, strStartsWith task.schedule "*/" = false →
        strContainsChar task.schedule ' ' = false →
        (task ∈ res ↔ task.schedule = format_hm t)) := by
  constructor
  · intro task hmem n hpre hparse hpos
    rw [run_due_tasks_mem tasks t res hres task]
    have hsr : should_run task.schedule t = some (t.minute % n == 0) := by
      simp [should_run, hpre, hparse, Nat.pos_iff_ne_zero.mp hpos]
    constructor
    · rintro ⟨-, hs⟩
      rw [hsr] at hs
      simpa using Option.some.inj hs
    · intro h
      refine ⟨hmem, ?_⟩
      rw [hsr]
      simpa using h
  · intro task hmem hpre hspace
    rw [run_due_tasks_mem tasks t res hres task]
    have hsr : should_run task.schedule t = some (task.schedule == format_hm t) := by
      simp [should_run, hpre, hspace]
    constructor
    · rintro ⟨-, hs⟩
      rw [hsr] at hs
      simpa using Option.some.inj hs
    · intro h
      refine ⟨hmem, ?_⟩
      rw [hsr]
      simpa using h

/-- Witness for C7: the table entry `process_pending` with schedule `*/30` is
executed when the current minute is 30 and not executed at minute 31. -/
theorem run_due_tasks_due_iff_witness :
    run_due_tasks [STask.mk "process_pending" "*/30"] (SchedTime.mk "Sunday" 12 30)
      = some [STask.mk "process_pending" "*/30"] ∧
    STask.mk "process_pending" "*/30" ∈ [STask.mk "process_pending" "*/30"] ∧
    run_due_tasks [STask.mk "process_pending" "*/30"] (SchedTime.mk "Sunday" 12 31)
      = some [] ∧
    STask.mk "process_pending" "*/30" ∉ ([] : List STask) := by
  refine ⟨by decide, ?_, by decide, ?_⟩
  · have h := run_due_tasks_due_iff [STask.mk "process_pending" "*/30"]
      (SchedTime.mk "Sunday" 12 30) [STask.mk "process_pending" "*/30"] (by decide)
    exact (h.1 (STask.mk "process_pending" "*/30") (by simp) 30 (by decide) (by decide)
      (by decide)).mpr (by decide)
  · have h := run_due_tasks_due_iff [STask.mk "process_pending" "*/30"]
      (SchedTime.mk "Sunday" 12 31) [] (by decide)
    intro hmem
    have h2 := (h.1 (STask.mk "process_pending" "*/30") (by simp) 30 (by decide) (by decide)
      (by decide)).mp hmem
    exact absurd h2 (by decide)

/-! ## Item store: approval manager and plan manager
(src/.qwen/skills/approval-workflow/scripts/approval-manager.py and
src/.qwen/skills/plan-creator/scripts/plan-manager.py) -/

/-- The stored `expires:` frontmatter field of an item file.  `valid secs` is a
well-formed ISO timestamp denoting `secs` seconds since the epoch; `malformed`
is an unparseable value. -/
inductive ExpiresField where
  | valid (secs : Nat)
  | malformed
deriving DecidableEq

/-- Content of one item file, reduced to what the modelled operations read: the
optional `expires:` header line, and the remaining text, unread but carried
along by moves. -/
structure ItemFile where
  expiresLine : Option ExpiresField
  body : String
deriving DecidableEq

/-- Truncation of an epoch instant to the start of its hour. -/
def truncHour (s : Nat) : Nat := s / 3600 * 3600

/-- Expiry parsing of `ApprovalManager.check_status`
(approval-manager.py, line 133): `line.split(":")[1].strip()` cuts the ISO
timestamp `YYYY-MM-DDTHH:MM:SS...` at its second colon, keeping only
`YYYY-MM-DDTHH`, and `datetime.fromisoformat` (Python 3.11 and later) parses
that reduced-precision form as the hour-truncated instant.  `none` models the
`except: pass` branch taken when the value does not parse. -/
def parse_expiry : ExpiresField → Option Nat
  | .valid s => some (truncHour s)
  | .malformed => none

/-- A lifecycle folder: the files it currently holds, keyed by filename.
Subdirectories and other non-file entries are not modelled; the operations
under study filter them out with `is_file()`. -/
abbrev Folder := List (String × ItemFile)

/-- Existence and lookup of `folder / name`. -/
def getEntry (folder : Folder) (name : String) : Option ItemFile :=
  (folder.find? (fun e => e.1 == name)).map (fun e => e.2)

/-- Python `Path.rename(dest)` into a folder, with POSIX rename semantics: the
name is bound to the moved file, and an existing destination entry of the same
name is replaced silently.  (On Windows the same call raises FileExistsError
instead; either way the code performs no destination check of its own.) -/
def rename_into (folder : Folder) (name : String) (f : ItemFile) : Folder :=
  (folder.filter (fun e => e.1 != name)) ++ [(name, f)]

/-- Disappearance of a name from the source folder of a rename. -/
def remove_entry (folder : Folder) (name : String) : Folder :=
  folder.filter (fun e => e.1 != name)

/-- The vault folders used by `ApprovalManager` (Pending_Approval, Approved,
Rejected, Done) and `PlanManager` (Plans, Done). -/
structure Vault where
  pending_approval : Folder
  approved : Folder
  rejected : Folder
  done : Folder
  plans : Folder
deriving DecidableEq

/-- The status strings `check_status` can report. -/
inductive Status where
  | pending
  | approved
  | rejected
  | done
  | expired
  | not_found
deriving DecidableEq

/-- Transcription of `ApprovalManager.check_status`
(approval-manager.py, lines 105-141): the filename is looked up in
Pending_Approval, Approved, Rejected, Done in that order (the insertion order
of the `folders` dict); for a pending item carrying an `expires:` line that
parses, the method reports `expired` once `datetime.now() > expiry`.  The
method only reads files — it performs no rename, write or unlink — so the
vault is returned unchanged alongside the status. -/
def check_status (v : Vault) (filename : String) (now : Nat) : Status × Vault :=
  match getEntry v.pending_approval filename with
  | some f =>
    match f.expiresLine with
    | some ef =>
      match parse_expiry ef with
      | some e => if now > e then (Status.expired, v) else (Status.pending, v)
      | none => (Status.pending, v)
    | none => (Status.pending, v)
  | none =>
    match getEntry v.approved filename with
    | some _ => (Status.approved, v)
    | none =>
      match getEntry v.rejected filename with
      | some _ => (Status.rejected, v)
      | none =>
        match getEntry v.done filename with
        | some _ => (Status.done, v)
        | none => (Status.not_found, v)

/-- C5: a pending item whose stored expiry is strictly past at query time is
reported `expired` rather than `pending`, and the query leaves every folder —
in particular the Pending_Approval folder still holding the file — unchanged.
The stored instant `s` is what the `expires:` line denotes; `check_status`
compares against its hour truncation, which is not later, so any strictly past
stored expiry is also past once truncated. -/
theorem check_status_expired (v : Vault) (filename : String) (now s : Nat) (f : ItemFile)
    (hf : getEntry v.pending_approval filename = some f)
    (hex : f.expiresLine = some (ExpiresField.valid s))
    (hpast : s < now) :
    check_status v filename now = (Status.expired, v) := by
  have htr : truncHour s ≤ s := Nat.div_mul_le_self s 3600
  have hlt : truncHour s < now := lt_of_le_of_lt htr hpast
  simp [check_status, hf, hex, parse_expiry, hlt]

/-- Witness for C5: a concrete vault whose single pending request stores an
expiry in the past reports `expired` while the vault is untouched. -/
theorem check_status_expired_witness :
    (1000 : Nat) < 2000 ∧
    check_status
        (Vault.mk [("REQ.md", ItemFile.mk (some (ExpiresField.valid 1000)) "x")] [] [] [] [])
        "REQ.md" 2000
      = (Status.expired,
         Vault.mk [("REQ.md", ItemFile.mk (some (ExpiresField.valid 1000)) "x")] [] [] [] []) :=
  ⟨by decide,
   check_status_expired
     (Vault.mk [("REQ.md", ItemFile.mk (some (ExpiresField.valid 1000)) "x")] [] [] [] [])
     "REQ.md" 2000 1000 (ItemFile.mk (some (ExpiresField.valid 1000)) "x")
     (by decide) rfl (by decide)⟩

/-- C8: a pending item whose `expires:` field is absent or malformed is
reported with its nominal `pending` state — the expiry comparison is skipped,
no exception escapes (the parse failure is swallowed by the `except: pass`
handler) — and the vault is unchanged. -/
theorem check_status_malformed (v : Vault) (filename : String) (now : Nat) (f : ItemFile)
    (hf : getEntry v.pending_approval filename = some f)
    (hex : f.expiresLine = none ∨ f.expiresLine = some ExpiresField.malformed) :
    check_status v filename now = (Status.pending, v) := by
  rcases hex with hex | hex <;> simp [check_status, hf, hex, parse_expiry]

/-- Witness for C8: one pending item without an `expires:` line and one with a
malformed line both report `pending`, with the vault untouched. -/
theorem check_status_malformed_witness :
    check_status (Vault.mk [("A.md", ItemFile.mk none "x")] [] [] [] []) "A.md" 5
        = (Status.pending, Vault.mk [("A.md", ItemFile.mk none "x")] [] [] [] []) ∧
    check_status (Vault.mk [("B.md", ItemFile.mk (some ExpiresField.malformed) "y")] [] [] [] [])
        "B.md" 5
      = (Status.pending,
         Vault.mk [("B.md", ItemFile.mk (some ExpiresField.malformed) "y")] [] [] [] []) :=
  ⟨check_status_malformed (Vault.mk [("A.md", ItemFile.mk none "x")] [] [] [] []) "A.md" 5
     (ItemFile.mk none "x") (by decide) (Or.inl rfl),
   check_status_malformed
     (Vault.mk [("B.md", ItemFile.mk (some ExpiresField.malformed) "y")] [] [] [] []) "B.md" 5
     (ItemFile.mk (some ExpiresField.malformed) "y") (by decide) (Or.inr rfl)⟩

/-- Python `s.endswith(p)`, also used for the `Path.suffix` comparison. -/
def strEndsWith (s p : String) : Bool :=
  p.data.isSuffixOf s.data

/-- Python `filepath.suffix == ".md"` for a directory entry: the extension is
`.md`.  A file named exactly `.md` is a dotfile with empty `Path.suffix`,
hence excluded. -/
def suffix_is_md (name : String) : Bool :=
  strEndsWith name ".md" && name != ".md"

/-- Transcription of `PlanManager._find_file`
(plan-manager.py, lines 265-278): the exact filename is tried first in Plans,
then, when the argument does not already end in `.md`, the name with `.md`
appended.  The result carries the resolved name together with the file. -/
def find_file (plans : Folder) (filename : String) : Option (String × ItemFile) :=
  match getEntry plans filename with
  | some f => some (filename, f)
  | none =>
    if !strEndsWith filename ".md" then
      match getEntry plans (filename ++ ".md") with
      | some f => some (filename ++ ".md", f)
      | none => none
    else none

/-- Transcription of `PlanManager.complete_plan`
(plan-manager.py, lines 254-263): resolve the plan via `_find_file`; report
failure when absent; otherwise a single `Path.rename` into Done.  Note that
the destination is `self.done / filename` — the original argument, not the
resolved name. -/
def complete_plan (v : Vault) (filename : String) : Bool × Vault :=
  match find_file v.plans filename with
  | none => (false, v)
  | some r =>
    (true, { v with plans := remove_entry v.plans r.1,
                    done := rename_into v.done filename r.2 })

/-- The loop body of `ApprovalManager.process_approved`
(approval-manager.py, lines 206-215), iterating over a snapshot of the Approved
directory listing (`os.listdir` materialises the listing before the loop, so
renaming during iteration is sound): every `.md` file is renamed into Done and
its name appended to the processed list. -/
def process_approved_loop (entries : List (String × ItemFile)) (approved done : Folder)
    (processed : List String) : Folder × Folder × List String :=
  match entries with
  | [] => (approved, done, processed)
  | e :: rest =>
    if suffix_is_md e.1 then
      process_approved_loop rest (remove_entry approved e.1) (rename_into done e.1 e.2)
        (processed ++ [e.1])
    else
      process_approved_loop rest approved done processed

/-- Transcription of `ApprovalManager.process_approved`
(approval-manager.py, lines 197-217). -/
def process_approved (v : Vault) : Vault × List String :=
  let r := process_approved_loop v.approved v.approved v.done []
  ({ v with approved := r.1, done := r.2.1 }, r.2.2)

theorem find?_filter_out_name (folder : Folder) (name : String) :
    (folder.filter (fun e => e.1 != name)).find? (fun e => e.1 == name) = none := by
  rw [List.find?_eq_none]
  intro x hx
  have hne := List.of_mem_filter hx
  simp only [bne_iff_ne, ne_eq] at hne
  simp [hne]

theorem find?_filter_other_name (folder : Folder) (name name' : String)
    (h : name' ≠ name) :
    (folder.filter (fun e => e.1 != name)).find? (fun e => e.1 == name')
      = folder.find? (fun e => e.1 == name') := by
  rw [List.find?_filter]
  congr 1
  funext a
  by_cases ha : a.1 = name'
  · simp [ha, h]
  · simp [ha]

theorem getEntry_rename_into_self (folder : Folder) (name : String) (f : ItemFile) :
    getEntry (rename_into folder name f) name = some f := by
  unfold getEntry rename_into
  rw [List.find?_append, find?_filter_out_name]
  simp [List.find?]

theorem getEntry_rename_into_ne (folder : Folder) (name name' : String) (f : ItemFile)
    (h : name' ≠ name) :
    getEntry (rename_into folder name f) name' = getEntry folder name' := by
  unfold getEntry rename_into
  rw [List.find?_append, find?_filter_other_name folder name name' h]
  have hb : ((name, f).1 == name') = false := by
    simp only [beq_eq_false_iff_ne, ne_eq]
    exact fun hx => h hx.symm
  have hone : List.find? (fun e => e.1 == name') [(name, f)] = none := by
    simp [List.find?, hb]
  rw [hone, Option.or_none]

theorem getEntry_remove_entry_self (folder : Folder) (name : String) :
    getEntry (remove_entry folder name) name = none := by
  unfold getEntry remove_entry
  rw [find?_filter_out_name]
  rfl

theorem getEntry_remove_entry_ne (folder : Folder) (name name' : String)
    (h : name' ≠ name) :
    getEntry (remove_entry folder name) name' = getEntry folder name' := by
  unfold getEntry remove_entry
  rw [find?_filter_other_name folder name name' h]

theorem getEntry_some_mem (folder : Folder) (name : String) (f : ItemFile)
    (h : getEntry folder name = some f) : (name, f) ∈ folder := by
  unfold getEntry at h
  cases hf : folder.find? (fun e => e.1 == name) with
  | none => rw [hf] at h; exact absurd h (by simp)
  | some e =>
    rw [hf] at h
    have h2 : e.2 = f := Option.some.inj h
    have hmem := List.mem_of_find?_eq_some hf
    have hp := List.find?_some hf
    simp only [beq_iff_eq] at hp
    have he : e = (name, f) := by
      cases e with
      | mk a b =>
        simp only at hp h2
        rw [hp, h2]
    rwa [he] at hmem

theorem process_approved_loop_untouched (entries : List (String × ItemFile))
    (approved done : Folder) (processed : List String) (name : String)
    (h : name ∉ entries.map Prod.fst) :
    getEntry (process_approved_loop entries approved done processed).1 name
        = getEntry approved name ∧
    getEntry (process_approved_loop entries approved done processed).2.1 name
        = getEntry done name := by
  induction entries generalizing approved done processed with
  | nil => exact ⟨rfl, rfl⟩
  | cons e rest ih =>
    simp only [List.map_cons, List.mem_cons, not_or] at h
    obtain ⟨hne, hrest⟩ := h
    by_cases hmd : suffix_is_md e.1
    · simp only [process_approved_loop, if_pos hmd]
      have := ih (remove_entry approved e.1) (rename_into done e.1 e.2)
        (processed ++ [e.1]) hrest
      rw [this.1, this.2, getEntry_remove_entry_ne _ _ _ hne,
        getEntry_rename_into_ne _ _ _ _ hne]
      exact ⟨rfl, rfl⟩
    · simp only [process_approved_loop, if_neg hmd]
      exact ih approved done processed hrest

theorem process_approved_loop_moves (entries : List (String × ItemFile))
    (approved done : Folder) (processed : List String) (name : String) (f : ItemFile)
    (hnd : (entries.map Prod.fst).Nodup) (hmem : (name, f) ∈ entries)
    (hmd : suffix_is_md name = true) :
    getEntry (process_approved_loop entries approved done processed).1 name = none ∧
    getEntry (process_approved_loop entries approved done processed).2.1 name = some f := by
  induction entries generalizing approved done processed with
  | nil => exact absurd hmem (List.not_mem_nil _)
  | cons e rest ih =>
    simp only [List.map_cons, List.nodup_cons] at hnd
    obtain ⟨hhd, htl⟩ := hnd
    rcases List.mem_cons.mp hmem with rfl | hmem
    · simp only [process_approved_loop, if_pos hmd]
      have hnotin : name ∉ rest.map Prod.fst := hhd
      have := process_approved_loop_untouched rest (remove_entry approved name)
        (rename_into done name f) (processed ++ [name]) name hnotin
      rw [this.1, this.2, getEntry_remove_entry_self, getEntry_rename_into_self]
      exact ⟨rfl, rfl⟩
    · have hne : e.1 ≠ name := by
        intro hx
        exact hhd (hx ▸ List.mem_map_of_mem Prod.fst hmem)
      by_cases hemd : suffix_is_md e.1
      · simp only [process_approved_loop, if_pos hemd]
        exact ih _ _ _ htl hmem
      · simp only [process_approved_loop, if_neg hemd]
        exact ih _ _ _ htl hmem

/-- The vault of the C2 counterexample: a plan `P.md` ready to complete while
Done already holds a distinct older file of the same name. -/
def collisionVault : Vault :=
  Vault.mk [] [] [] [("P.md", ItemFile.mk none "old")] [("P.md", ItemFile.mk none "new")]

/-- Counterexample to C2 as stated: with `P.md` present in both Plans and
Done, `complete_plan` does not fail with AlreadyExists — it reports success
and the pre-existing destination file is silently replaced by the moved one
(bare POSIX `Path.rename`, no destination check in the code). -/
theorem complete_plan_overwrites :
    getEntry collisionVault.done "P.md" = some (ItemFile.mk none "old") ∧
    (complete_plan collisionVault "P.md").1 = true ∧
    getEntry (complete_plan collisionVault "P.md").2.done "P.md"
      = some (ItemFile.mk none "new") := by
  decide

/-- C2 amended: `complete_plan` fails (returns False, vault untouched) when
the plan is in neither form present in Plans; when the named plan exists the
move is a single atomic rename — afterwards the name is gone from Plans and
bound in Done to the moved file, silently replacing any previous Done entry of
that name rather than failing; `process_approved` likewise renames every
approved `.md` item into Done in one atomic step. -/
theorem transition_move_semantics :
    (∀ (v : Vault) (name : String), find_file v.plans name = none →
        complete_plan v name = (false, v)) ∧
    (∀ (v : Vault) (name : String) (f : ItemFile),
        strEndsWith name ".md" = true → getEntry v.plans name = some f →
        (complete_plan v name).1 = true ∧
        getEntry (complete_plan v name).2.plans name = none ∧
        getEntry (complete_plan v name).2.done name = some f) ∧
    (∀ (v : Vault) (name : String) (f : ItemFile),
        (v.approved.map Prod.fst).Nodup →
        getEntry v.approved name = some f → suffix_is_md name = true →
        getEntry (process_approved v).1.approved name = none ∧
        getEntry (process_approved v).1.done name = some f) := by
  refine ⟨?_, ?_, ?_⟩
  · intro v name h
    simp [complete_plan, h]
  · intro v name f _ hf
    refine ⟨?_, ?_, ?_⟩ <;> simp only [complete_plan, find_file, hf]
    · exact getEntry_remove_entry_self _ _
    · exact getEntry_rename_into_self _ _ _

  · intro v name f hnd hf hmd
    have hmem := getEntry_some_mem v.approved name f hf
    have := process_approved_loop_moves v.approved v.approved v.done [] name f hnd hmem hmd
    exact this

/-- Witness for the amended C2: concrete instances of all three conjuncts —
a missing plan fails and leaves the vault unchanged, completing `Q.md` moves
it from Plans to Done, and processing an approved `R.md` moves it to Done. -/
theorem transition_move_semantics_witness :
    complete_plan (Vault.mk [] [] [] [] []) "Q.md" = (false, Vault.mk [] [] [] [] []) ∧
    (complete_plan (Vault.mk [] [] [] [] [("Q.md", ItemFile.mk none "q")]) "Q.md").1 = true ∧
    getEntry (complete_plan (Vault.mk [] [] [] []
        [("Q.md", ItemFile.mk none "q")]) "Q.md").2.done "Q.md" = some (ItemFile.mk none "q") ∧
    getEntry (process_approved (Vault.mk [] [("R.md", ItemFile.mk none "r")] [] [] [])).1.done
        "R.md" = some (ItemFile.mk none "r") := by
  refine ⟨transition_move_semantics.1 (Vault.mk [] [] [] [] []) "Q.md" (by decide), ?_, ?_, ?_⟩
  · exact (transition_move_semantics.2.1 (Vault.mk [] [] [] [] [("Q.md", ItemFile.mk none "q")])
      "Q.md" (ItemFile.mk none "q") (by decide) (by decide)).1
  · exact (transition_move_semantics.2.1 (Vault.mk [] [] [] [] [("Q.md", ItemFile.mk none "q")])
      "Q.md" (ItemFile.mk none "q") (by decide) (by decide)).2.2
  · exact (transition_move_semantics.2.2 (Vault.mk [] [("R.md", ItemFile.mk none "r")] [] [] [])
      "R.md" (ItemFile.mk none "r") (by simp) (by decide) (by decide)).2

/-! ## Watchers (src/watchers/filesystem_watcher.py, src/watchers/gmail_watcher.py,
src/.qwen/skills/gmail-watcher/scripts/gmail-watcher.py) -/

/-- A candidate event of the filesystem watcher: one entry of the Inbox
directory as seen by `FileSystemWatcher.check_for_updates`.  `hash?` is the
result of `_get_file_hash` — the md5 of the file bytes, the derived identity of
the event; `none` models a read failure, which `_get_file_hash` converts to
Python `None`. -/
structure FsEvent where
  name : String
  is_file : Bool
  hash? : Option String
deriving DecidableEq

/-- Transcription of `FileSystemWatcher.check_for_updates`
(src/watchers/filesystem_watcher.py, lines 64-85): skip non-files and dotted
names; hash the file; report it and record the hash when the hash computed and
is not yet in `processed_files` (a dict keyed by hash — only the keys matter to
the logic, so the cache is modelled as the key list). -/
def fs_check_for_updates (processed : List String) (entries : List FsEvent) :
    List String × List FsEvent :=
  match entries with
  | [] => (processed, [])
  | e :: rest =>
    if e.is_file && !(strStartsWith e.name ".") then
      match e.hash? with
      | some h =>
        if processed.contains h then fs_check_for_updates processed rest
        else
          let r := fs_check_for_updates (h :: processed) rest
          (r.1, e :: r.2)
      | none => fs_check_for_updates processed rest
    else fs_check_for_updates processed rest

/-- One Gmail message as returned by the list call, with the verdict of
`_is_important` abstracted into a field: `_is_important` inspects only the
headers, labels and attachments of the fetched message, never the watcher
state, so it is a fixed attribute of the event. -/
structure GmailMsg where
  id : String
  important : Bool
deriving DecidableEq

/-- The dedup loop shared, line for line, by `GmailWatcher.check_for_updates`
in src/watchers/gmail_watcher.py (lines 208-225) and in the skill copy
src/.qwen/skills/gmail-watcher/scripts/gmail-watcher.py (lines 164-181): a
message whose id is already cached is skipped; an important new message is
reported and its id added to the cache immediately. -/
def gmail_dedup_loop (processed : List String) (msgs : List GmailMsg) :
    List String × List GmailMsg :=
  match msgs with
  | [] => (processed, [])
  | m :: rest =>
    if processed.contains m.id then gmail_dedup_loop processed rest
    else if m.important then
      let r := gmail_dedup_loop (m.id :: processed) rest
      (r.1, m :: r.2)
    else gmail_dedup_loop processed rest

/-- Outcome of one poll cycle: the cache afterwards, the events reported, and
how many times the cache file was written during the cycle. -/
structure CycleResult (ε : Type) where
  cache : List String
  reported : List ε
  cache_writes : Nat
deriving DecidableEq

/-- Transcription of `GmailWatcher.check_for_updates` of
src/watchers/gmail_watcher.py (lines 186-240): nothing happens without a
service handle; otherwise the dedup loop runs and `_save_processed_ids` is
called only under `if new_emails:` (line 228). -/
def gmail_check_for_updates (service : Bool) (processed : List String)
    (msgs : List GmailMsg) : CycleResult GmailMsg :=
  if service then
    let r := gmail_dedup_loop processed msgs
    { cache := r.1, reported := r.2, cache_writes := if r.2.isEmpty then 0 else 1 }
  else { cache := processed, reported := [], cache_writes := 0 }

/-- Transcription of `GmailWatcher.check_for_updates` of
src/.qwen/skills/gmail-watcher/scripts/gmail-watcher.py (lines 143-190): same
dedup loop, but `_save_processed_ids()` is called unconditionally after the
loop (line 184), so every successful poll cycle writes the cache file, even
one that reported nothing. -/
def skill_gmail_check_for_updates (service : Bool) (processed : List String)
    (msgs : List GmailMsg) : CycleResult GmailMsg :=
  if service then
    let r := gmail_dedup_loop processed msgs
    { cache := r.1, reported := r.2, cache_writes := 1 }
  else { cache := processed, reported := [], cache_writes := 0 }

/-- `FileSystemWatcher.check_for_updates` as a poll cycle: the method touches
only the in-memory `processed_files` dict — no persistence call appears
anywhere in the class, so a cycle performs zero cache-file writes. -/
def fs_check_cycle (processed : List String) (entries : List FsEvent) :
    CycleResult FsEvent :=
  let r := fs_check_for_updates processed entries
  { cache := r.1, reported := r.2, cache_writes := 0 }

/-- Occurrences of derived identity `i` among reported filesystem events. -/
def count_hash (i : String) (l : List FsEvent) : Nat :=
  (l.filter (fun e => e.hash? == some i)).length

/-- Occurrences of message id `i` among reported Gmail messages. -/
def count_id (i : String) (l : List GmailMsg) : Nat :=
  (l.filter (fun m => m.id == i)).length

/-- Indicator of a Bool, used to count cache membership. -/
def once (b : Bool) : Nat := if b then 1 else 0

theorem once_le_one (b : Bool) : once b ≤ 1 := by
  cases b <;> simp [once]

theorem once_true : once true = 1 := rfl

theorem once_false : once false = 0 := rfl

theorem fs_cycle_count (processed : List String) (entries : List FsEvent) (i : String) :
    count_hash i (fs_check_for_updates processed entries).2 + once (processed.contains i)
      ≤ once ((fs_check_for_updates processed entries).1.contains i) := by
  induction entries generalizing processed with
  | nil => simp [fs_check_for_updates, count_hash]
  | cons e rest ih =>
    by_cases hel : (e.is_file && !(strStartsWith e.name ".")) = true
    · cases hh : e.hash? with
      | none =>
        simpa only [fs_check_for_updates, hel, if_pos, hh] using ih processed
      | some h =>
        by_cases hc : processed.contains h = true
        · simpa only [fs_check_for_updates, hel, if_pos, hh, hc, if_true] using ih processed
        · have hcf : processed.contains h = false := by simpa using hc
          simp only [fs_check_for_updates, hel, if_pos, hh, hcf, Bool.false_eq_true, if_false]
          simp only [count_hash, List.filter_cons]
          by_cases hbe : (e.hash? == some i) = true
          · have hhi : h = i := by
              rw [hh] at hbe
              simpa using hbe
            subst hhi
            rw [if_pos hbe, List.length_cons, hcf, once_false]
            have hih := ih (h :: processed)
            have hmem : (h :: processed).contains h = true := by simp
            rw [hmem, once_true] at hih
            simp only [count_hash] at hih
            omega
          · rw [if_neg hbe]
            have hne : h ≠ i := by
              intro hx
              apply hbe
              rw [hh, hx]
              simp
            have hih := ih (h :: processed)
            have hcc : (h :: processed).contains i = processed.contains i := by
              rw [List.contains_cons]
              have hf : (i == h) = false := beq_eq_false_iff_ne.mpr (fun hx => hne hx.symm)
              rw [hf, Bool.false_or]
            rw [hcc] at hih
            simpa only [count_hash] using hih
    · simpa only [fs_check_for_updates, hel, if_neg, Bool.false_eq_true] using ih processed

theorem gmail_cycle_count (processed : List String) (msgs : List GmailMsg) (i : String) :
    count_id i (gmail_dedup_loop processed msgs).2 + once (processed.contains i)
      ≤ once ((gmail_dedup_loop processed msgs).1.contains i) := by
  induction msgs generalizing processed with
  | nil => simp [gmail_dedup_loop, count_id]
  | cons m rest ih =>
    by_cases hc : processed.contains m.id = true
    · simpa only [gmail_dedup_loop, hc, if_true] using ih processed
    · have hcf : processed.contains m.id = false := by simpa using hc
      by_cases himp : m.important = true
      · simp only [gmail_dedup_loop, hcf, Bool.false_eq_true, if_false, himp, if_true]
        simp only [count_id, List.filter_cons]
        by_cases hbe : (m.id == i) = true
        · have hhi : m.id = i := by simpa using hbe
          subst hhi
          rw [if_pos hbe, List.length_cons, hcf, once_false]
          have hih := ih (m.id :: processed)
          have hmem : (m.id :: processed).contains m.id = true := by simp
          rw [hmem, once_true] at hih
          simp only [count_id] at hih
          omega
        · rw [if_neg hbe]
          have hne : m.id ≠ i := by
            intro hx
            apply hbe
            rw [hx]
            simp
          have hih := ih (m.id :: processed)
          have hcc : (m.id :: processed).contains i = processed.contains i := by
            rw [List.contains_cons]
            have hf : (i == m.id) = false := beq_eq_false_iff_ne.mpr (fun hx => hne hx.symm)
            rw [hf, Bool.false_or]
          rw [hcc] at hih
          simpa only [count_id] using hih
      · simpa only [gmail_dedup_loop, hcf, Bool.false_eq_true, if_false, himp] using ih processed

/-- The reported events accumulated over a sequence of filesystem poll cycles
within one watcher process (the loop in `BaseWatcher.run` repeatedly calls
`check_for_updates` and creates one action file per reported event). -/
def fs_run_reports (processed : List String) (polls : List (List FsEvent)) :
    List FsEvent :=
  match polls with
  | [] => []
  | p :: rest =>
    let r := fs_check_for_updates processed p
    r.2 ++ fs_run_reports r.1 rest

/-- The reported messages accumulated over a sequence of Gmail poll cycles
within one watcher process; each cycle may or may not have a live service
handle.  `GmailWatcher.run` creates one action file per reported message. -/
def gmail_run_reports (processed : List String) (polls : List (Bool × List GmailMsg)) :
    List GmailMsg :=
  match polls with
  | [] => []
  | p :: rest =>
    let r := gmail_check_for_updates p.1 processed p.2
    r.reported ++ gmail_run_reports r.cache rest

theorem count_hash_append (i : String) (a b : List FsEvent) :
    count_hash i (a ++ b) = count_hash i a + count_hash i b := by
  simp [count_hash, List.filter_append]

theorem count_id_append (i : String) (a b : List GmailMsg) :
    count_id i (a ++ b) = count_id i a + count_id i b := by
  simp [count_id, List.filter_append]

theorem fs_run_count (processed : List String) (polls : List (List FsEvent)) (i : String) :
    count_hash i (fs_run_reports processed polls) + once (processed.contains i) ≤ 1 := by
  induction polls generalizing processed with
  | nil =>
    simp only [fs_run_reports, count_hash, List.filter_nil, List.length_nil, Nat.zero_add]
    exact once_le_one _
  | cons p rest ih =>
    rw [fs_run_reports, count_hash_append]
    have h1 := fs_cycle_count processed p i
    have h2 := ih (fs_check_for_updates processed p).1
    have h3 := once_le_one ((fs_check_for_updates processed p).1.contains i)
    omega

theorem gmail_run_count (processed : List String) (polls : List (Bool × List GmailMsg))
    (i : String) :
    count_id i (gmail_run_reports processed polls) + once (processed.contains i) ≤ 1 := by
  induction polls generalizing processed with
  | nil =>
    simp only [gmail_run_reports, count_id, List.filter_nil, List.length_nil, Nat.zero_add]
    exact once_le_one _
  | cons p rest ih =>
    rw [gmail_run_reports, count_id_append]
    cases hs : p.1 with
    | false =>
      have he : gmail_check_for_updates false processed p.2
          = { cache := processed, reported := [], cache_writes := 0 } := rfl
      rw [he]
      dsimp only
      have h2 := ih processed
      simp only [count_id, List.filter_nil, List.length_nil] at h2 ⊢
      omega
    | true =>
      have he : gmail_check_for_updates true processed p.2
          = { cache := (gmail_dedup_loop processed p.2).1,
              reported := (gmail_dedup_loop processed p.2).2,
              cache_writes := if (gmail_dedup_loop processed p.2).2.isEmpty then 0 else 1 } := rfl
      rw [he]
      dsimp only
      have h1 := gmail_cycle_count processed p.2 i
      have h2 := ih (gmail_dedup_loop processed p.2).1
      omega

/-- C4: over any sequence of poll cycles of one watcher process, each derived
identity — the content hash for the filesystem watcher, the message id for the
Gmail watcher — occurs at most once among all reported events, whatever the
initial cache; hence at most one action file (WorkItem) is ever created per
identity, and a second observation of an already reported event is silently
discarded. -/
theorem watcher_idempotent_ingestion :
    (∀ (processed : List String) (polls : List (List FsEvent)) (i : String),
        count_hash i (fs_run_reports processed polls) ≤ 1) ∧
    (∀ (processed : List String) (polls : List (Bool × List GmailMsg)) (i : String),
        count_id i (gmail_run_reports processed polls) ≤ 1) := by
  constructor
  · intro processed polls i
    have := fs_run_count processed polls i
    omega
  · intro processed polls i
    have := gmail_run_count processed polls i
    omega

/-- Witness for C4: a file event with hash `X1` observed in two consecutive
polls is reported exactly once, and likewise a Gmail message observed twice. -/
theorem watcher_idempotent_ingestion_witness :
    fs_run_reports []
        [[FsEvent.mk "a.txt" true (some "X1")], [FsEvent.mk "a.txt" true (some "X1")]]
      = [FsEvent.mk "a.txt" true (some "X1")] ∧
    count_hash "X1" (fs_run_reports []
        [[FsEvent.mk "a.txt" true (some "X1")], [FsEvent.mk "a.txt" true (some "X1")]]) ≤ 1 ∧
    gmail_run_reports []
        [(true, [GmailMsg.mk "M1" true]), (true, [GmailMsg.mk "M1" true])]
      = [GmailMsg.mk "M1" true] ∧
    count_id "M1" (gmail_run_reports []
        [(true, [GmailMsg.mk "M1" true]), (true, [GmailMsg.mk "M1" true])]) ≤ 1 := by
  refine ⟨by decide, ?_, by decide, ?_⟩
  · exact watcher_idempotent_ingestion.1 []
      [[FsEvent.mk "a.txt" true (some "X1")], [FsEvent.mk "a.txt" true (some "X1")]] "X1"
  · exact watcher_idempotent_ingestion.2 []
      [(true, [GmailMsg.mk "M1" true]), (true, [GmailMsg.mk "M1" true])] "M1"

/-- Counterexample to C6 as stated: the skill Gmail watcher writes the cache
file on a successful poll cycle that produced no new items (its save call is
unconditional), and the filesystem watcher performs no cache-file write even
on a cycle that did produce a new item. -/
theorem skill_gmail_saves_on_empty_cycle :
    (skill_gmail_check_for_updates true [] []).reported = [] ∧
    (skill_gmail_check_for_updates true [] []).cache_writes = 1 ∧
    (fs_check_cycle [] [FsEvent.mk "n.txt" true (some "h1")]).reported
      = [FsEvent.mk "n.txt" true (some "h1")] ∧
    (fs_check_cycle [] [FsEvent.mk "n.txt" true (some "h1")]).cache_writes = 0 := by
  decide

/-- C6 amended: the src/watchers Gmail watcher persists its cache after a poll
cycle iff the cycle reported at least one new item; the skill Gmail watcher
writes the cache file on every successful poll cycle, also on empty ones; the
filesystem watcher never writes a cache file, keeping its dedup state in
memory only. -/
theorem dedup_persistence_behaviour :
    (∀ (processed : List String) (msgs : List GmailMsg),
        (gmail_check_for_updates true processed msgs).cache_writes
          = if (gmail_check_for_updates true processed msgs).reported = [] then 0 else 1) ∧
    (∀ (processed : List String) (msgs : List GmailMsg),
        (skill_gmail_check_for_updates true processed msgs).cache_writes = 1) ∧
    (∀ (processed : List String) (entries : List FsEvent),
        (fs_check_cycle processed entries).cache_writes = 0) := by
  refine ⟨?_, ?_, ?_⟩
  · intro processed msgs
    simp only [gmail_check_for_updates, if_pos]
    cases h : (gmail_dedup_loop processed msgs).2 <;> simp [h]
  · intro processed msgs
    rfl
  · intro processed entries
    rfl

/-- Witness for the amended C6: a productive cycle of the src/watchers Gmail
watcher writes once, an empty one writes zero times. -/
theorem dedup_persistence_behaviour_witness :
    (gmail_check_for_updates true [] [GmailMsg.mk "M1" true]).cache_writes = 1 ∧
    (gmail_check_for_updates true [] []).cache_writes = 0 ∧
    (skill_gmail_check_for_updates true [] []).cache_writes = 1 ∧
    (fs_check_cycle [] []).cache_writes = 0 := by
  refine ⟨?_, ?_, ?_, ?_⟩
  · rw [dedup_persistence_behaviour.1 [] [GmailMsg.mk "M1" true]]
    decide
  · rw [dedup_persistence_behaviour.1 [] []]
    decide
  · exact dedup_persistence_behaviour.2.1 [] []
  · exact dedup_persistence_behaviour.2.2 [] []

/-! ## Orchestrator (src/orchestrator.py) -/

/-- One entry of the Needs_Action directory listing as inspected by
`Orchestrator.check_for_new_tasks`: its name, whether it is a regular file,
its `Path.suffix`, whether opening and reading the first ten characters
succeeds (`read_ok` false models the exception branch for a file still being
written), and whether those characters strip to something non-empty. -/
structure OFile where
  name : String
  is_file : Bool
  suffix : String
  read_ok : Bool
  has_content : Bool
deriving DecidableEq

/-- Transcription of `Orchestrator.check_for_new_tasks`
(src/orchestrator.py, lines 91-119): for each `.md` regular file whose name is
not yet in the in-memory `processed_files` set, try to read it; if it has
content, report it as a new task and add its name to `processed_files` at once
— before any dispatch happens.  Unreadable or empty files are skipped without
being recorded. -/
def check_for_new_tasks (processed : List String) (entries : List OFile) :
    List String × List String :=
  match entries with
  | [] => (processed, [])
  | e :: rest =>
    if e.is_file && (e.suffix == ".md") then
      if processed.contains e.name then check_for_new_tasks processed rest
      else if e.read_ok then
        if e.has_content then
          let r := check_for_new_tasks (e.name :: processed) rest
          (r.1, e.name :: r.2)
        else check_for_new_tasks processed rest
      else check_for_new_tasks processed rest
    else check_for_new_tasks processed rest

/-- The four ways `Orchestrator.trigger_qwen_code` can end
(src/orchestrator.py, lines 175-252): normal completion, the agent command
missing (FileNotFoundError), the 300 s timeout (TimeoutExpired, which kills
the agent process), or any other exception. -/
inductive DispatchOutcome where
  | success
  | command_missing
  | timeout
  | failed
deriving DecidableEq

/-- Effect of `Orchestrator.trigger_qwen_code` on the orchestrator state, with
its Bool return value.  Every path — including the timeout handler at lines
243-247 — only writes the prompt file and log entries: none touches
`processed_files` and none moves or deletes any file of Needs_Action. -/
def trigger_qwen_code (processed : List String) (outcome : DispatchOutcome) :
    List String × Bool :=
  match outcome with
  | DispatchOutcome.success => (processed, true)
  | DispatchOutcome.command_missing => (processed, false)
  | DispatchOutcome.timeout => (processed, false)
  | DispatchOutcome.failed => (processed, false)

/-- One iteration of the `Orchestrator.run` loop
(src/orchestrator.py, lines 323-340): scan, then dispatch when the scan
reported anything.  The cycle yields the new state and the scanned batch. -/
def orch_cycle (processed : List String) (c : List OFile × DispatchOutcome) :
    List String × List String :=
  let r := check_for_new_tasks processed c.1
  if r.2.isEmpty then (r.1, r.2)
  else ((trigger_qwen_code r.1 c.2).1, r.2)

/-- The batches returned across a sequence of orchestrator cycles within one
process, flattened. -/
def orch_run_reports (processed : List String)
    (cycles : List (List OFile × DispatchOutcome)) : List String :=
  match cycles with
  | [] => []
  | c :: rest =>
    let r := orch_cycle processed c
    r.2 ++ orch_run_reports r.1 rest

/-- Occurrences of a filename among reported task names. -/
def count_name (i : String) (l : List String) : Nat :=
  (l.filter (fun n => n == i)).length

theorem trigger_preserves (processed : List String) (o : DispatchOutcome) :
    (trigger_qwen_code processed o).1 = processed := by
  cases o <;> rfl

theorem orch_cycle_state (processed : List String) (c : List OFile × DispatchOutcome) :
    (orch_cycle processed c).1 = (check_for_new_tasks processed c.1).1 := by
  by_cases he : (check_for_new_tasks processed c.1).2.isEmpty = true
  · simp only [orch_cycle, he, if_true]
  · simp only [orch_cycle, he, Bool.false_eq_true, if_false, trigger_preserves]

theorem orch_cycle_out (processed : List String) (c : List OFile × DispatchOutcome) :
    (orch_cycle processed c).2 = (check_for_new_tasks processed c.1).2 := by
  by_cases he : (check_for_new_tasks processed c.1).2.isEmpty = true
  · simp only [orch_cycle, he, if_true]
  · simp only [orch_cycle, he, Bool.false_eq_true, if_false]

theorem check_cycle_count (processed : List String) (entries : List OFile) (i : String) :
    count_name i (check_for_new_tasks processed entries).2 + once (processed.contains i)
      ≤ once ((check_for_new_tasks processed entries).1.contains i) := by
  induction entries generalizing processed with
  | nil => simp [check_for_new_tasks, count_name]
  | cons e rest ih =>
    by_cases hel : (e.is_file && (e.suffix == ".md")) = true
    · by_cases hc : processed.contains e.name = true
      · simpa only [check_for_new_tasks, hel, if_pos, hc, if_true] using ih processed
      · have hcf : processed.contains e.name = false := by simpa using hc
        by_cases hro : e.read_ok = true
        · by_cases hhc : e.has_content = true
          · simp only [check_for_new_tasks, hel, if_pos, hcf, Bool.false_eq_true, if_false,
              hro, if_true, hhc]
            simp only [count_name, List.filter_cons]
            by_cases hbe : (e.name == i) = true
            · have hhi : e.name = i := by simpa using hbe
              subst hhi
              rw [if_pos hbe, List.length_cons, hcf, once_false]
              have hih := ih (e.name :: processed)
              have hmem : (e.name :: processed).contains e.name = true := by simp
              rw [hmem, once_true] at hih
              simp only [count_name] at hih
              omega
            · rw [if_neg hbe]
              have hne : e.name ≠ i := by
                intro hx
                apply hbe
                rw [hx]
                simp
              have hih := ih (e.name :: processed)
              have hcc : (e.name :: processed).contains i = processed.contains i := by
                rw [List.contains_cons]
                have hf : (i == e.name) = false := beq_eq_false_iff_ne.mpr (fun hx => hne hx.symm)
                rw [hf, Bool.false_or]
              rw [hcc] at hih
              simpa only [count_name] using hih
          · simpa only [check_for_new_tasks, hel, if_pos, hcf, Bool.false_eq_true, if_false,
              hro, if_true, hhc] using ih processed
        · simpa only [check_for_new_tasks, hel, if_pos, hcf, Bool.false_eq_true, if_false,
            hro] using ih processed
    · simpa only [check_for_new_tasks, hel, Bool.false_eq_true, if_false] using ih processed

theorem count_name_append (i : String) (a b : List String) :
    count_name i (a ++ b) = count_name i a + count_name i b := by
  simp [count_name, List.filter_append]

theorem orch_run_count (processed : List String)
    (cycles : List (List OFile × DispatchOutcome)) (i : String) :
    count_name i (orch_run_reports processed cycles) + once (processed.contains i) ≤ 1 := by
  induction cycles generalizing processed with
  | nil =>
    simp only [orch_run_reports, count_name, List.filter_nil, List.length_nil, Nat.zero_add]
    exact once_le_one _
  | cons c rest ih =>
    rw [orch_run_reports, count_name_append, orch_cycle_out, orch_cycle_state]
    have h1 := check_cycle_count processed c.1 i
    have h2 := ih (check_for_new_tasks processed c.1).1
    omega

/-- C9: within one orchestrator process, each filename is returned by
`check_for_new_tasks` at most once over any sequence of scan/dispatch cycles,
whatever folder listings the cycles see and however each dispatch ends —
success, missing command, timeout or failure — because the name enters the
in-memory `processed_files` set at scan time and is never removed. -/
theorem orchestrator_at_most_once (processed : List String)
    (cycles : List (List OFile × DispatchOutcome)) (i : String) :
    count_name i (orch_run_reports processed cycles) ≤ 1 := by
  have h := orch_run_count processed cycles i
  omega

/-- Witness companion for C9: a file scanned in cycle one and still listed in
cycle two, with the dispatch timing out in between, is reported exactly once
over the whole run. -/
theorem orchestrator_at_most_once_witness :
    orch_run_reports []
        [([OFile.mk "A.md" true ".md" true true], DispatchOutcome.timeout),
         ([OFile.mk "A.md" true ".md" true true], DispatchOutcome.timeout)]
      = ["A.md"] ∧
    count_name "A.md" (orch_run_reports []
        [([OFile.mk "A.md" true ".md" true true], DispatchOutcome.timeout),
         ([OFile.mk "A.md" true ".md" true true], DispatchOutcome.timeout)]) ≤ 1 := by
  refine ⟨by decide, ?_⟩
  exact orchestrator_at_most_once []
    [([OFile.mk "A.md" true ".md" true true], DispatchOutcome.timeout),
     ([OFile.mk "A.md" true ".md" true true], DispatchOutcome.timeout)] "A.md"

theorem check_reported_fresh (c : List String) (es : List OFile) (n : String)
    (hn : n ∈ (check_for_new_tasks c es).2) : c.contains n = false := by
  have hcnt : 1 ≤ count_name n (check_for_new_tasks c es).2 := by
    unfold count_name
    have hm : n ∈ (check_for_new_tasks c es).2.filter (fun x => x == n) :=
      List.mem_filter.mpr ⟨hn, by simp⟩
    exact List.length_pos_of_mem hm
  have h1 := check_cycle_count c es n
  have h2 := once_le_one ((check_for_new_tasks c es).1.contains n)
  cases hcc : c.contains n
  · rfl
  · rw [hcc, once_true] at h1
    omega

theorem check_reported_in_cache (c : List String) (es : List OFile) (n : String)
    (hn : n ∈ (check_for_new_tasks c es).2) :
    (check_for_new_tasks c es).1.contains n = true := by
  have hcnt : 1 ≤ count_name n (check_for_new_tasks c es).2 := by
    unfold count_name
    have hm : n ∈ (check_for_new_tasks c es).2.filter (fun x => x == n) :=
      List.mem_filter.mpr ⟨hn, by simp⟩
    exact List.length_pos_of_mem hm
  have h1 := check_cycle_count c es n
  cases hcc : (check_for_new_tasks c es).1.contains n
  · rw [hcc, once_false] at h1
    omega
  · rfl

theorem check_mono (c₁ c₂ : List String) (es : List OFile)
    (h : ∀ x, c₂.contains x = true → c₁.contains x = true) (n : String)
    (hn : n ∈ (check_for_new_tasks c₁ es).2) : n ∈ (check_for_new_tasks c₂ es).2 := by
  induction es generalizing c₁ c₂ with
  | nil => simp [check_for_new_tasks] at hn
  | cons e rest ih =>
    by_cases hel : (e.is_file && (e.suffix == ".md")) = true
    · by_cases hc1 : c₁.contains e.name = true
      · have hn' : n ∈ (check_for_new_tasks c₁ rest).2 := by
          simpa only [check_for_new_tasks, hel, if_pos, hc1, if_true] using hn
        by_cases hc2 : c₂.contains e.name = true
        · simp only [check_for_new_tasks, hel, if_pos, hc2, if_true]
          exact ih c₁ c₂ h hn'
        · have hc2f : c₂.contains e.name = false := by simpa using hc2
          by_cases hro : e.read_ok = true
          · by_cases hhc : e.has_content = true
            · have hsub : ∀ x, (e.name :: c₂).contains x = true → c₁.contains x = true := by
                intro x hx
                rw [List.contains_cons] at hx
                by_cases hxe : (x == e.name) = true
                · have hxeq : x = e.name := by simpa using hxe
                  rw [hxeq]
                  exact hc1
                · have hxf : (x == e.name) = false := by simpa using hxe
                  rw [hxf, Bool.false_or] at hx
                  exact h x hx
              simp only [check_for_new_tasks, hel, if_pos, hc2f, Bool.false_eq_true, if_false,
                hro, if_true, hhc]
              exact List.mem_cons_of_mem _ (ih c₁ (e.name :: c₂) hsub hn')
            · simp only [check_for_new_tasks, hel, if_pos, hc2f, Bool.false_eq_true, if_false,
                hro, if_true, hhc]
              exact ih c₁ c₂ h hn'
          · simp only [check_for_new_tasks, hel, if_pos, hc2f, Bool.false_eq_true, if_false,
              hro]
            exact ih c₁ c₂ h hn'
      · have hc1f : c₁.contains e.name = false := by simpa using hc1
        have hc2f : c₂.contains e.name = false := by
          cases hcc : c₂.contains e.name
          · rfl
          · exact absurd (h e.name hcc) hc1
        by_cases hro : e.read_ok = true
        · by_cases hhc : e.has_content = true
          · have hn' : n ∈ e.name :: (check_for_new_tasks (e.name :: c₁) rest).2 := by
              simpa only [check_for_new_tasks, hel, if_pos, hc1f, Bool.false_eq_true, if_false,
                hro, if_true, hhc] using hn
            have hsub : ∀ x, (e.name :: c₂).contains x = true →
                (e.name :: c₁).contains x = true := by
              intro x hx
              rw [List.contains_cons] at hx ⊢
              by_cases hxe : (x == e.name) = true
              · rw [hxe, Bool.true_or]
              · have hxf : (x == e.name) = false := by simpa using hxe
                rw [hxf, Bool.false_or] at hx ⊢
                exact h x hx
            simp only [check_for_new_tasks, hel, if_pos, hc2f, Bool.false_eq_true, if_false,
              hro, if_true, hhc]
            rcases List.mem_cons.mp hn' with rfl | hn''
            · exact List.mem_cons_self _ _
            · exact List.mem_cons_of_mem _ (ih (e.name :: c₁) (e.name :: c₂) hsub hn'')
          · have hn' : n ∈ (check_for_new_tasks c₁ rest).2 := by
              simpa only [check_for_new_tasks, hel, if_pos, hc1f, Bool.false_eq_true, if_false,
                hro, if_true, hhc] using hn
            simp only [check_for_new_tasks, hel, if_pos, hc2f, Bool.false_eq_true, if_false,
              hro, if_true, hhc]
            exact ih c₁ c₂ h hn'
        · have hn' : n ∈ (check_for_new_tasks c₁ rest).2 := by
            simpa only [check_for_new_tasks, hel, if_pos, hc1f, Bool.false_eq_true, if_false,
              hro] using hn
          simp only [check_for_new_tasks, hel, if_pos, hc2f, Bool.false_eq_true, if_false,
            hro]
          exact ih c₁ c₂ h hn'
    · have hn' : n ∈ (check_for_new_tasks c₁ rest).2 := by
        simpa only [check_for_new_tasks, hel, Bool.false_eq_true, if_false] using hn
      simp only [check_for_new_tasks, hel, Bool.false_eq_true, if_false]
      exact ih c₁ c₂ h hn'

/-- The New folder of the spec scenario: two readable, non-empty task files
`A.md` and `B.md`. -/
def folder_ab : List OFile :=
  [OFile.mk "A.md" true ".md" true true, OFile.mk "B.md" true ".md" true true]

/-- Counterexample to C1 as stated: over a New folder holding `A.md` and
`B.md`, the first scan returns both; the dispatch times out; both files are
still listed in the unchanged folder, yet the next scan of the same process
returns neither — their names entered `processed_files` at scan time and the
timeout handler removes nothing. -/
theorem timeout_batch_not_rescanned :
    (orch_cycle [] (folder_ab, DispatchOutcome.timeout)).2 = ["A.md", "B.md"] ∧
    (orch_cycle (orch_cycle [] (folder_ab, DispatchOutcome.timeout)).1
        (folder_ab, DispatchOutcome.timeout)).2 = [] := by
  decide

/-- C1 amended: when a dispatch of a scanned batch times out, the orchestrator
still moves no file (the batch stays in New), but the items are NOT returned
by the next scan of the same process — every name of the batch is absent from
the following scan over the same listing — and only a restart, with a fresh
empty `processed_files`, makes the scan return them again. -/
theorem timeout_items_not_returned_again (processed : List String) (folder : List OFile)
    (o o' : DispatchOutcome) :
    (∀ n ∈ (orch_cycle processed (folder, DispatchOutcome.timeout)).2,
        n ∉ (orch_cycle (orch_cycle processed (folder, DispatchOutcome.timeout)).1
              (folder, o)).2) ∧
    (∀ n ∈ (orch_cycle processed (folder, DispatchOutcome.timeout)).2,
        n ∈ (orch_cycle [] (folder, o')).2) := by
  constructor
  · intro n hn hn2
    rw [orch_cycle_out] at hn hn2
    rw [orch_cycle_state] at hn2
    have h1 := check_reported_in_cache processed folder n hn
    have h2 := check_reported_fresh (check_for_new_tasks processed folder).1 folder n hn2
    rw [h1] at h2
    exact absurd h2 (by simp)
  · intro n hn
    rw [orch_cycle_out] at hn ⊢
    refine check_mono processed [] folder ?_ n hn
    intro x hx
    simp at hx

/-- Witness for the amended C1: concretely, after the timed-out dispatch of
the batch `A.md`, `B.md`, the name `A.md` is in the first batch, is not in the
second scan of the same process, and is returned by a scan of a freshly
started process. -/
theorem timeout_items_not_returned_again_witness :
    "A.md" ∈ (orch_cycle [] (folder_ab, DispatchOutcome.timeout)).2 ∧
    "A.md" ∉ (orch_cycle (orch_cycle [] (folder_ab, DispatchOutcome.timeout)).1
        (folder_ab, DispatchOutcome.timeout)).2 ∧
    "A.md" ∈ (orch_cycle [] (folder_ab, DispatchOutcome.success)).2 := by
  have h := timeout_items_not_returned_again [] folder_ab DispatchOutcome.timeout
    DispatchOutcome.success
  refine ⟨by decide, h.1 "A.md" (by decide), h.2 "A.md" (by decide)⟩

/-! ## Persisted dedup cache
(`_save_processed_ids` of src/watchers/gmail_watcher.py, lines 100-110, and of
src/.qwen/skills/gmail-watcher/scripts/gmail-watcher.py, lines 86-92) -/

/-- Transcription of `_save_processed_ids`: the persisted id list is
`list(self.processed_ids)[-1000:]`.  `order` is the iteration order of the
Python set at save time, which is arbitrary — CPython sets are unordered, so
`order` is some permutation of the in-memory ids unrelated to insertion
order.  The slice keeps the final 1000 elements of that arbitrary order. -/
def save_processed_ids {α : Type} (order : List α) : List α :=
  order.drop (order.length - 1000)

theorem save_processed_ids_length_le {α : Type} (order : List α) :
    (save_processed_ids order).length ≤ 1000 := by
  simp only [save_processed_ids, List.length_drop]
  omega

/-- The cache state of one Gmail watcher process: the in-memory
`processed_ids` set (as the list of its elements) and the content of the cache
file, when it has been written. -/
structure GWState where
  mem : List String
  persisted : Option (List String)
deriving DecidableEq

/-- One poll cycle of the src/watchers Gmail watcher as it affects the cache:
the dedup loop grows the in-memory set, and when the cycle reported anything,
`_save_processed_ids` rewrites the cache file from the iteration order
`order` the set presents at that moment.  The method never truncates or
reassigns `self.processed_ids` itself. -/
def gmail_cache_cycle (st : GWState) (msgs : List GmailMsg) (order : List String) :
    GWState :=
  let r := gmail_dedup_loop st.mem msgs
  if r.2.isEmpty then { mem := r.1, persisted := st.persisted }
  else { mem := r.1, persisted := some (save_processed_ids order) }

/-- A sequence of poll cycles, each with its message list and the set
iteration order seen at its save. -/
def gmail_cache_run (st : GWState) (cycles : List (List GmailMsg × List String)) :
    GWState :=
  match cycles with
  | [] => st
  | c :: rest => gmail_cache_run (gmail_cache_cycle st c.1 c.2) rest

theorem gmail_dedup_loop_cache_superset (processed : List String) (msgs : List GmailMsg) :
    ∀ x ∈ processed, x ∈ (gmail_dedup_loop processed msgs).1 := by
  induction msgs generalizing processed with
  | nil =>
    intro x hx
    simpa [gmail_dedup_loop] using hx
  | cons m rest ih =>
    intro x hx
    by_cases hc : processed.contains m.id = true
    · simpa only [gmail_dedup_loop, hc, if_true] using ih processed x hx
    · have hcf : processed.contains m.id = false := by simpa using hc
      by_cases himp : m.important = true
      · simp only [gmail_dedup_loop, hcf, Bool.false_eq_true, if_false, himp, if_true]
        exact ih (m.id :: processed) x (List.mem_cons_of_mem _ hx)
      · simpa only [gmail_dedup_loop, hcf, Bool.false_eq_true, if_false, himp]
          using ih processed x hx

/-- C10: over any sequence of poll cycles, every state of the cache file holds
at most 1000 identifiers — each save writes `list(set)[-1000:]`, a slice of at
most 1000 elements — while the in-memory set is never truncated: every id it
holds at the start of the run it still holds at the end. -/
theorem dedup_persisted_bound (st : GWState) (cycles : List (List GmailMsg × List String))
    (h0 : ∀ l, st.persisted = some l → l.length ≤ 1000) :
    (∀ l, (gmail_cache_run st cycles).persisted = some l → l.length ≤ 1000) ∧
    (∀ x ∈ st.mem, x ∈ (gmail_cache_run st cycles).mem) := by
  induction cycles generalizing st with
  | nil => exact ⟨h0, fun x hx => hx⟩
  | cons c rest ih =>
    have hstep : ∀ l, (gmail_cache_cycle st c.1 c.2).persisted = some l → l.length ≤ 1000 := by
      intro l hl
      unfold gmail_cache_cycle at hl
      by_cases he : (gmail_dedup_loop st.mem c.1).2.isEmpty = true
      · rw [if_pos he] at hl
        exact h0 l hl
      · rw [if_neg he] at hl
        have : some (save_processed_ids c.2) = some l := hl
        rw [← Option.some.inj this]
        exact save_processed_ids_length_le c.2
    have hmem : ∀ x ∈ st.mem, x ∈ (gmail_cache_cycle st c.1 c.2).mem := by
      intro x hx
      unfold gmail_cache_cycle
      by_cases he : (gmail_dedup_loop st.mem c.1).2.isEmpty = true
      · rw [if_pos he]
        exact gmail_dedup_loop_cache_superset st.mem c.1 x hx
      · rw [if_neg he]
        exact gmail_dedup_loop_cache_superset st.mem c.1 x hx
    have := ih (gmail_cache_cycle st c.1 c.2) hstep
    exact ⟨this.1, fun x hx => this.2 x (hmem x hx)⟩

/-- Witness for C10: a concrete run of one productive cycle persists the full
two-element set — within the 1000 bound — while the in-memory set keeps the
id it started with. -/
theorem dedup_persisted_bound_witness :
    (gmail_cache_run (GWState.mk ["m1"] none)
        [([GmailMsg.mk "m2" true], ["m2", "m1"])]).persisted = some ["m2", "m1"] ∧
    (["m2", "m1"] : List String).length ≤ 1000 ∧
    "m1" ∈ (gmail_cache_run (GWState.mk ["m1"] none)
        [([GmailMsg.mk "m2" true], ["m2", "m1"])]).mem := by
  refine ⟨by decide, ?_, ?_⟩
  · exact (dedup_persisted_bound (GWState.mk ["m1"] none)
      [([GmailMsg.mk "m2" true], ["m2", "m1"])]
      (by intro l hl; simp at hl)).1 ["m2", "m1"] (by decide)
  · exact (dedup_persisted_bound (GWState.mk ["m1"] none)
      [([GmailMsg.mk "m2" true], ["m2", "m1"])]
      (by intro l hl; simp at hl)).2 "m1" (by decide)

/-- C3 evaluated at its failing input: number the ids 0..1000 in the order
they were first seen, so id 0 is the oldest and id 1000 the newest, and let
the set iterate newest-first — a legal iteration order for an unordered
CPython set.  Then `list(set)[-1000:]` keeps the oldest id 0 and evicts the
newest id 1000, the opposite of the claimed oldest-first eviction (and of the
code comment, which says the last 1000 ids are kept). -/
theorem save_keeps_arbitrary_slice :
    save_processed_ids ((List.range 1001).reverse) = (List.range 1000).reverse ∧
    0 ∈ save_processed_ids ((List.range 1001).reverse) ∧
    1000 ∉ save_processed_ids ((List.range 1001).reverse) := by
  have h20 : (1001 : Nat) = 1000 + 1 := by norm_num
  have h2 : (List.range 1001).reverse = 1000 :: (List.range 1000).reverse := by
    rw [h20, List.range_succ, List.reverse_append, List.reverse_singleton,
      List.singleton_append]
  have hmain : save_processed_ids ((List.range 1001).reverse) = (List.range 1000).reverse := by
    unfold save_processed_ids
    rw [List.length_reverse, List.length_range, h2]
    rfl
  refine ⟨hmain, ?_, ?_⟩
  · rw [hmain]
    simp only [List.mem_reverse, List.mem_range]
    norm_num
  · rw [hmain]
    simp only [List.mem_reverse, List.mem_range]
    norm_num

end AIEmployee
